import Mathlib

/- A shallow embedding of the advanced-vector repository
   (src/advanced-vector/vector.h): the RawMemory untyped buffer owner and
   the Vector container built on top of it. Raw storage is modelled as an
   optional list of optional elements: the outer Option is buffer
   nullness, a slot holding none is uninitialized memory, a slot holding
   some value is a live constructed object. Machine pointers become slot
   indices. Move and copy of a single element coincide on pure values, so
   both relocation branches of the constexpr dispatch collapse to the
   same list operation; fallible element operations are modelled
   separately by functions returning Option in order to settle the
   exception-safety claims. -/

namespace AV

variable {T : Type}

/-- Untyped raw buffer owner, from RawMemory in vector.h. The buffer
field is none exactly when the C++ buffer pointer is null; a slot of the
list is none when that piece of memory holds no constructed object. -/
structure RawMemory (T : Type) where
  buffer : Option (List (Option T))
  capacity : Nat

/-- Static RawMemory Allocate: a nonzero n yields a fresh uninitialized
block of n slots, n = 0 yields a null buffer. -/
def RawMemory.Allocate (T : Type) (n : Nat) : Option (List (Option T)) :=
  if n ≠ 0 then some (List.replicate n none) else none

/-- RawMemory constructor taking a capacity. -/
def RawMemory.ofCapacity (T : Type) (n : Nat) : RawMemory T :=
  ⟨RawMemory.Allocate T n, n⟩

/-- RawMemory move constructor: the new object takes the buffer and the
capacity of the source; the source buffer is set to null while the
source capacity field is left unchanged, exactly as in the source. The
first component is the newly constructed object, the second the
moved-from source. -/
def RawMemory.MoveCtor (other : RawMemory T) : RawMemory T × RawMemory T :=
  (⟨other.buffer, other.capacity⟩, ⟨none, other.capacity⟩)

/-- RawMemory Swap: exchanges buffer and capacity of the two objects. -/
def RawMemory.SwapMem (a b : RawMemory T) : RawMemory T × RawMemory T :=
  (⟨b.buffer, b.capacity⟩, ⟨a.buffer, a.capacity⟩)

/-- RawMemory move assignment, implemented as Swap in the source. First
component is the assigned-to object, second the source. -/
def RawMemory.MoveAssign (self rhs : RawMemory T) : RawMemory T × RawMemory T :=
  RawMemory.SwapMem self rhs

/-- Destruction of n adjacent slots starting at start, as done by the
DestroyN helper of Vector: each destroyed slot becomes uninitialized. -/
def destroyN (l : List (Option T)) (start : Nat) : Nat → List (Option T)
  | 0 => l
  | n + 1 => destroyN (l.set start none) (start + 1) n

/-- The uninitialized-copy, uninitialized-move and element assignment
loops of the source: write n values read from src starting at srcStart
into dst starting at dstStart. On pure values move and copy coincide. -/
def copyN (src : List (Option T)) (srcStart : Nat) (dst : List (Option T))
    (dstStart : Nat) : Nat → List (Option T)
  | 0 => dst
  | n + 1 =>
    copyN src (srcStart + 1) (dst.set dstStart (src.getD srcStart none)) (dstStart + 1) n

/-- Backward move with the destination one slot to the right of the
source, as in the mid-array Emplace branch: a step writes slot last from
slot (last - 1) and descends; the fuel is the element count. -/
def moveBackward1 (l : List (Option T)) (last : Nat) : Nat → List (Option T)
  | 0 => l
  | n + 1 => moveBackward1 (l.set last (l.getD (last - 1) none)) (last - 1) n

/-- Forward move with the destination one slot to the left of the
source, as in Erase: a step writes slot dst from slot (dst + 1) and
ascends; the fuel is the element count. -/
def moveForward1 (l : List (Option T)) (dst : Nat) : Nat → List (Option T)
  | 0 => l
  | n + 1 => moveForward1 (l.set dst (l.getD (dst + 1) none)) (dst + 1) n

/-- Value construction of n adjacent slots starting at start, modelling
uninitialized_value_construct_n. -/
def valueConstructN [Inhabited T] (l : List (Option T)) (start : Nat) :
    Nat → List (Option T)
  | 0 => l
  | n + 1 => valueConstructN (l.set start (some default)) (start + 1) n

/-- The Vector container of vector.h: a RawMemory data member plus the
count of live elements. -/
structure Vector (T : Type) where
  data : RawMemory T
  size : Nat

/-- Capacity accessor, forwarding to the RawMemory capacity. -/
def Vector.Capacity (v : Vector T) : Nat := v.data.capacity

/-- The slot list of the underlying buffer; a null buffer reads as the
empty slot list. -/
def Vector.slots (v : Vector T) : List (Option T) := v.data.buffer.getD []

/-- Value stored at slot i, none when the slot holds no live object. -/
def Vector.readAt (v : Vector T) (i : Nat) : Option T := v.slots.getD i none

/-- Default constructor: size 0, capacity 0, null buffer. -/
def Vector.emptyVec (T : Type) : Vector T := ⟨⟨none, 0⟩, 0⟩

/-- Copy constructor: allocates capacity equal to the source size and
copy-constructs the source elements into it. -/
def Vector.copyCtor (o : Vector T) : Vector T :=
  ⟨⟨(RawMemory.Allocate T o.size).map (fun l => copyN o.slots 0 l 0 o.size), o.size⟩, o.size⟩

/-- Vector move constructor: the data member is move-constructed with
the RawMemory move constructor, which keeps the source capacity and only
nulls the source buffer; moving the size_t size member is a plain copy,
so the source size field is unchanged. First component is the new
object, second the moved-from source. -/
def Vector.MoveCtor (other : Vector T) : Vector T × Vector T :=
  ((⟨(RawMemory.MoveCtor other.data).1, other.size⟩ : Vector T),
   (⟨(RawMemory.MoveCtor other.data).2, other.size⟩ : Vector T))

/-- Vector move assignment: assigning the data member resolves to the
RawMemory swap, and moving the size_t size member is a plain copy that
leaves the source size field unchanged. First component is the
assigned-to object, second the source after the call. -/
def Vector.MoveAssign (self rhs : Vector T) : Vector T × Vector T :=
  ((⟨(RawMemory.MoveAssign self.data rhs.data).1, rhs.size⟩ : Vector T),
   (⟨(RawMemory.MoveAssign self.data rhs.data).2, rhs.size⟩ : Vector T))

/-- Vector Swap: exchanges the data members and the size fields. -/
def Vector.SwapV (a b : Vector T) : Vector T × Vector T :=
  ((⟨b.data, b.size⟩ : Vector T), (⟨a.data, a.size⟩ : Vector T))

/-- Copy assignment between distinct objects, following the source: a
reallocating copy-and-swap when the source does not fit the current
capacity, otherwise assignment over the common prefix followed either by
destruction of the surplus elements or by copy-construction of the
missing tail; the size field is written last. -/
def Vector.copyAssign (a b : Vector T) : Vector T :=
  if b.size > a.Capacity then Vector.copyCtor b
  else if b.size < a.size then
    ⟨⟨a.data.buffer.map
        (fun l => destroyN (copyN b.slots 0 l 0 b.size) b.size (a.size - b.size)),
      a.Capacity⟩, b.size⟩
  else
    ⟨⟨a.data.buffer.map
        (fun l =>
          if a.size < b.size then
            copyN b.slots a.size (copyN b.slots 0 l 0 a.size) a.size (b.size - a.size)
          else copyN b.slots 0 l 0 a.size),
      a.Capacity⟩, b.size⟩

/-- Reserve: a no-op unless the requested capacity exceeds the current
one, otherwise relocate all live elements into a fresh allocation of
exactly the requested capacity, destroy the originals and swap. -/
def Vector.Reserve (v : Vector T) (n : Nat) : Vector T :=
  if n ≤ v.Capacity then v
  else ⟨⟨(RawMemory.Allocate T n).map (fun l => copyN v.slots 0 l 0 v.size), n⟩, v.size⟩

/-- Resize, from vector.h: note that the shrink branch destroys starting
at slot new_size + 1, exactly as the source does. -/
def Vector.Resize [Inhabited T] (v : Vector T) (new_size : Nat) : Vector T :=
  if new_size ≤ v.size then
    ⟨⟨v.data.buffer.map (fun l => destroyN l (new_size + 1) (v.size - new_size)),
      v.Capacity⟩, new_size⟩
  else if new_size ≤ v.Capacity then
    ⟨⟨v.data.buffer.map (fun l => valueConstructN l v.size (new_size - v.size)),
      v.Capacity⟩, new_size⟩
  else
    ⟨⟨(v.Reserve new_size).data.buffer.map
        (fun l => valueConstructN l v.size (new_size - v.size)),
      (v.Reserve new_size).Capacity⟩, new_size⟩

/-- PushBack: at full capacity allocate a doubled buffer, construct the
new element into it first, relocate the old elements, destroy the
originals and swap; otherwise construct in place. Then increment size. -/
def Vector.PushBack (v : Vector T) (x : T) : Vector T :=
  if v.size = v.Capacity then
    let newCap := if v.size = 0 then 1 else 2 * v.size
    let nb := (List.replicate newCap (none : Option T)).set v.size (some x)
    ⟨⟨some (copyN v.slots 0 nb 0 v.size), newCap⟩, v.size + 1⟩
  else ⟨⟨v.data.buffer.map (fun l => l.set v.size (some x)), v.Capacity⟩, v.size + 1⟩

/-- EmplaceBack: same growth discipline as PushBack; the second
component is the index of the slot whose address the source returns as a
reference to the new element. -/
def Vector.EmplaceBack (v : Vector T) (x : T) : Vector T × Nat :=
  if v.size = v.Capacity then
    let newCap := if v.size = 0 then 1 else 2 * v.size
    let nb := (List.replicate newCap (none : Option T)).set v.size (some x)
    (⟨⟨some (copyN v.slots 0 nb 0 v.size), newCap⟩, v.size + 1⟩, v.size)
  else
    (⟨⟨v.data.buffer.map (fun l => l.set v.size (some x)), v.Capacity⟩, v.size + 1⟩, v.size)

/-- Emplace at position p: at full capacity construct the new element
into its final slot of a doubled buffer and relocate prefix and suffix
around it; below capacity either construct at the end, or move-construct
the last element one slot up, shift the tail backward and move-assign
the new value into the vacated slot. Second component is the index of
the returned iterator. -/
def Vector.Emplace (v : Vector T) (p : Nat) (x : T) : Vector T × Nat :=
  if v.size = v.Capacity then
    let newCap := if v.size = 0 then 1 else 2 * v.size
    let nb0 := (List.replicate newCap (none : Option T)).set p (some x)
    let nb1 := copyN v.slots 0 nb0 0 p
    let nb2 := copyN v.slots p nb1 (p + 1) (v.size - p)
    (⟨⟨some nb2, newCap⟩, v.size + 1⟩, p)
  else if p = v.size then
    (⟨⟨v.data.buffer.map (fun l => l.set v.size (some x)), v.Capacity⟩, v.size + 1⟩, p)
  else
    (⟨⟨v.data.buffer.map
         (fun l =>
           (moveBackward1 (l.set v.size (l.getD (v.size - 1) none)) (v.size - 1)
               (v.size - 1 - p)).set p (some x)),
       v.Capacity⟩, v.size + 1⟩, p)

/-- Erase at position p: destroy the slot, move the subsequent range one
slot to the left, decrement size. Second component is the index of the
returned iterator. -/
def Vector.Erase (v : Vector T) (p : Nat) : Vector T × Nat :=
  (⟨⟨v.data.buffer.map (fun l => moveForward1 (l.set p none) p (v.size - (p + 1))),
     v.Capacity⟩, v.size - 1⟩, p)

/-- Insert forwards to Emplace, as both source overloads do. -/
def Vector.Insert (v : Vector T) (p : Nat) (x : T) : Vector T × Nat := v.Emplace p x

/-- PopBack: destroy the last live element and decrement size. -/
def Vector.PopBack (v : Vector T) : Vector T :=
  ⟨⟨v.data.buffer.map (fun l => l.set (v.size - 1) none), v.Capacity⟩, v.size - 1⟩

/-- A whole sequence of appends into an initially default-constructed
vector. -/
def Vector.appendAll (xs : List T) : Vector T :=
  xs.foldl Vector.PushBack (Vector.emptyVec T)

/-- Structural well-formedness: the slot list has exactly capacity slots
and the live count fits the capacity. -/
def Vector.WF (v : Vector T) : Prop :=
  v.size ≤ v.Capacity ∧ v.slots.length = v.Capacity

/-- The container invariant of the spec: live objects exactly on the
logical range and nothing live in the spare capacity. -/
def Vector.Inv (v : Vector T) : Prop :=
  v.WF ∧ (∀ i, i < v.size → v.slots.getD i none ≠ none)
    ∧ (∀ i, i < v.Capacity → v.size ≤ i → v.slots.getD i none = none)

/-- The logical element sequence: the values of the live range in
order. -/
def Vector.elemsL (v : Vector T) : List (Option T) :=
  (List.range v.size).map (fun i => v.slots.getD i none)

/-- Relocation by copy with a fallible element copy f, where none means
the copy constructor throws. The vector being relocated from is threaded
through the loop; on a throw the partially built destination is
destroyed and deallocated and the exception carries the state of the
source vector at that moment. -/
def relocCopyE (f : T → Option T) :
    Vector T → List (Option T) → Nat → Nat → Except (Vector T) (Vector T × List (Option T))
  | v, nb, _, 0 => .ok (v, nb)
  | v, nb, i, n + 1 =>
    match (v.slots.getD i none).bind f with
    | none => .error v
    | some x => relocCopyE f v (nb.set i (some x)) (i + 1) n

/-- Reserve for an element type on the copy-relocation path (copy
constructible, move may throw) with fallible element copies: the
originals are destroyed only after the whole relocation succeeded. -/
def Vector.ReserveE (f : T → Option T) (v : Vector T) (n : Nat) :
    Except (Vector T) (Vector T) :=
  if n ≤ v.Capacity then .ok v
  else
    match relocCopyE f v (List.replicate n none) 0 v.size with
    | .error w => .error w
    | .ok (w, nb) => .ok ⟨⟨some nb, n⟩, w.size⟩

/-- PushBack on the copy-relocation path with fallible element copies:
the new element is copy-constructed into the fresh buffer first, then
the old elements are copy-relocated; only after full success are the
originals destroyed and the buffers swapped. -/
def Vector.PushBackE (f : T → Option T) (v : Vector T) (x : T) :
    Except (Vector T) (Vector T) :=
  if v.size = v.Capacity then
    let newCap := if v.size = 0 then 1 else 2 * v.size
    match f x with
    | none => .error v
    | some xc =>
      match relocCopyE f v ((List.replicate newCap (none : Option T)).set v.size (some xc)) 0 v.size with
      | .error w => .error w
      | .ok (w, nb) => .ok ⟨⟨some nb, newCap⟩, w.size + 1⟩
  else
    match f x with
    | none => .error v
    | some xc =>
      .ok ⟨⟨v.data.buffer.map (fun l => l.set v.size (some xc)), v.Capacity⟩, v.size + 1⟩

/-- The element assignment loop of copy assignment with a fallible
element assignment f: on a throw the loop stops and the partially
updated destination buffer is handed back with the exception. -/
def assignLoopE (f : T → Option T) (src : List (Option T)) (srcStart : Nat)
    (dst : List (Option T)) (dstStart : Nat) :
    Nat → Except (List (Option T)) (List (Option T))
  | 0 => .ok dst
  | n + 1 =>
    match (src.getD srcStart none).bind f with
    | none => .error dst
    | some x => assignLoopE f src (srcStart + 1) (dst.set dstStart (some x)) (dstStart + 1) n

/-- An uninitialized copy with a fallible element copy: all or nothing,
since on a throw the already constructed copies are destroyed again. -/
def copyNE (f : T → Option T) (src : List (Option T)) (srcStart : Nat)
    (dst : List (Option T)) (dstStart : Nat) : Nat → Option (List (Option T))
  | 0 => some dst
  | n + 1 =>
    match (src.getD srcStart none).bind f with
    | none => none
    | some x => copyNE f src (srcStart + 1) (dst.set dstStart (some x)) (dstStart + 1) n

/-- Copy assignment with fallible element copies and assignments,
mirroring the branch structure of the source operator. Every exception
outcome carries the state observable after the throw; in particular the
size field is only written after all element operations succeeded. -/
def Vector.copyAssignE (f : T → Option T) (a b : Vector T) :
    Except (Vector T) (Vector T) :=
  if b.size > a.Capacity then
    match relocCopyE f b (List.replicate b.size none) 0 b.size with
    | .error _ => .error a
    | .ok (_, nb) =>
      .ok ⟨⟨(RawMemory.Allocate T b.size).map (fun _ => nb), b.size⟩, b.size⟩
  else if b.size < a.size then
    match assignLoopE f b.slots 0 a.slots 0 b.size with
    | .error l1 => .error ⟨⟨a.data.buffer.map (fun _ => l1), a.Capacity⟩, a.size⟩
    | .ok l1 =>
      .ok ⟨⟨a.data.buffer.map (fun _ => destroyN l1 b.size (a.size - b.size)), a.Capacity⟩, b.size⟩
  else
    match assignLoopE f b.slots 0 a.slots 0 a.size with
    | .error l1 => .error ⟨⟨a.data.buffer.map (fun _ => l1), a.Capacity⟩, a.size⟩
    | .ok l1 =>
      if a.size < b.size then
        match copyNE f b.slots a.size l1 a.size (b.size - a.size) with
        | none => .error ⟨⟨a.data.buffer.map (fun _ => l1), a.Capacity⟩, a.size⟩
        | some l2 => .ok ⟨⟨a.data.buffer.map (fun _ => l2), a.Capacity⟩, b.size⟩
      else .ok ⟨⟨a.data.buffer.map (fun _ => l1), a.Capacity⟩, b.size⟩

/-- Concrete vector used to exercise the Resize shrink defect: two live
elements, capacity three. -/
def cexBuggy : Vector Nat := ⟨⟨some [some 10, some 20, none], 3⟩, 2⟩

/-- A fallible copy function that throws exactly on the value 20. -/
def cexThrowF : Nat → Option Nat := fun a => if a = 20 then none else some a

/-- Concrete full vector: two live elements, capacity two. -/
def cexFullV : Vector Nat := ⟨⟨some [some 10, some 20], 2⟩, 2⟩

/-- Concrete assignment target: seven live elements, capacity ten. -/
def cexA : Vector Nat :=
  ⟨⟨some [some 1, some 2, some 3, some 4, some 5, some 6, some 7, none, none, none], 10⟩, 7⟩

/-- Concrete assignment source: three live elements, capacity three. -/
def cexB : Vector Nat := ⟨⟨some [some 8, some 9, some 11], 3⟩, 3⟩

/-- Concrete vector with spare capacity for the insertion round trip. -/
def cexMid : Vector Nat := ⟨⟨some [some 1, some 2, some 3, none], 4⟩, 3⟩

/-- Concrete one-element full vector. -/
def cexOne : Vector Nat := ⟨⟨some [some 7], 1⟩, 1⟩

/- Helper lemmas about the slot-list primitives. -/

theorem getD_set_self {α : Type} (l : List α) (i : Nat) (a d : α) (h : i < l.length) :
    (l.set i a).getD i d = a := by
  simp [List.getD_eq_getElem?_getD, List.getElem?_set_self h]

theorem getD_set_ne {α : Type} (l : List α) (i j : Nat) (a d : α) (h : i ≠ j) :
    (l.set i a).getD j d = l.getD j d := by
  simp [List.getD_eq_getElem?_getD, List.getElem?_set_ne h]

theorem set_getD_self {α : Type} (l : List α) (i : Nat) (d : α) (h : i < l.length) :
    l.set i (l.getD i d) = l := by
  induction l generalizing i with
  | nil => simp at h
  | cons x xs ih =>
    cases i with
    | zero => simp
    | succ n =>
      simp only [List.getD_cons_succ, List.set_cons_succ, List.cons.injEq, true_and]
      exact ih n (by simpa using h)

theorem copyN_length (src dst : List (Option T)) (ss ds n : Nat) :
    (copyN src ss dst ds n).length = dst.length := by
  induction n generalizing src ss dst ds with
  | zero => rfl
  | succ n ih => simp [copyN, ih]

theorem destroyN_getD (l : List (Option T)) (s n j : Nat) :
    (destroyN l s n).getD j none =
      if s ≤ j ∧ j < s + n then none else l.getD j none := by
  induction n generalizing l s with
  | zero =>
    simp only [destroyN]
    rw [if_neg (by omega)]
  | succ n ih =>
    simp only [destroyN]
    rw [ih]
    by_cases h1 : s + 1 ≤ j ∧ j < s + 1 + n
    · rw [if_pos h1, if_pos (by omega)]
    · rw [if_neg h1]
      by_cases h2 : j = s
      · subst h2
        rw [if_pos (by omega)]
        by_cases h3 : j < l.length
        · exact getD_set_self l j none none h3
        · rw [List.set_eq_of_length_le (by omega), List.getD_eq_default _ _ (by omega)]
      · rw [getD_set_ne l s j none none (fun hc => h2 hc.symm), if_neg (by omega)]

theorem copyN_getD (src dst : List (Option T)) (ss ds n j : Nat) :
    (copyN src ss dst ds n).getD j none =
      if ds ≤ j ∧ j < ds + n ∧ j < dst.length then src.getD (ss + (j - ds)) none
      else dst.getD j none := by
  induction n generalizing src ss dst ds with
  | zero =>
    simp only [copyN]
    rw [if_neg (by omega)]
  | succ n ih =>
    simp only [copyN]
    rw [ih]
    rw [List.length_set]
    by_cases h1 : ds + 1 ≤ j ∧ j < ds + 1 + n ∧ j < dst.length
    · rw [if_pos h1, if_pos (by omega)]
      rw [show ss + 1 + (j - (ds + 1)) = ss + (j - ds) from by omega]
    · rw [if_neg h1]
      by_cases h2 : j = ds
      · subst h2
        by_cases h3 : j < dst.length
        · rw [getD_set_self dst j _ none h3, if_pos (by omega)]
          rw [show ss + (j - j) = ss from by omega]
        · rw [List.set_eq_of_length_le (by omega), if_neg (by omega)]
      · rw [getD_set_ne dst ds j _ none (fun hc => h2 hc.symm), if_neg (by omega)]

theorem moveBackward1_getD (l : List (Option T)) (last n j : Nat)
    (hn : n ≤ last) (hl : last < l.length) :
    (moveBackward1 l last n).getD j none =
      if last - n < j ∧ j ≤ last then l.getD (j - 1) none else l.getD j none := by
  induction n generalizing l last with
  | zero =>
    simp only [moveBackward1]
    rw [if_neg (by omega)]
  | succ n ih =>
    simp only [moveBackward1]
    rw [ih _ _ (by omega) (by rw [List.length_set]; omega)]
    by_cases h1 : last - 1 - n < j ∧ j ≤ last - 1
    · rw [if_pos h1, if_pos (by omega)]
      rw [getD_set_ne l last (j - 1) _ none (by omega)]
    · rw [if_neg h1]
      by_cases h2 : j = last
      · subst h2
        rw [getD_set_self l j _ none hl, if_pos (by omega)]
      · rw [getD_set_ne l last j _ none (fun hc => h2 hc.symm), if_neg (by omega)]

theorem moveForward1_getD (l : List (Option T)) (d n j : Nat) :
    (moveForward1 l d n).getD j none =
      if d ≤ j ∧ j < d + n then l.getD (j + 1) none else l.getD j none := by
  induction n generalizing l d with
  | zero =>
    simp only [moveForward1]
    rw [if_neg (by omega)]
  | succ n ih =>
    simp only [moveForward1]
    rw [ih]
    by_cases h1 : d + 1 ≤ j ∧ j < d + 1 + n
    · rw [if_pos h1, if_pos (by omega)]
      rw [getD_set_ne l d (j + 1) _ none (by omega)]
    · rw [if_neg h1]
      by_cases h2 : j = d
      · subst h2
        rw [if_pos (by omega)]
        by_cases h3 : j < l.length
        · exact getD_set_self l j _ none h3
        · rw [List.set_eq_of_length_le (by omega),
            List.getD_eq_default _ _ (by omega), List.getD_eq_default _ _ (by omega)]
      · rw [getD_set_ne l d j _ none (fun hc => h2 hc.symm), if_neg (by omega)]

theorem copyN_self (l : List (Option T)) (k n : Nat) (h : k + n ≤ l.length) :
    copyN l k l k n = l := by
  induction n generalizing k with
  | zero => rfl
  | succ n ih =>
    simp only [copyN]
    rw [set_getD_self l k none (by omega)]
    exact ih (k + 1) (by omega)

theorem moveBackward1_length (l : List (Option T)) (last n : Nat) :
    (moveBackward1 l last n).length = l.length := by
  induction n generalizing l last with
  | zero => rfl
  | succ n ih => simp [moveBackward1, ih]

/-- C1: evaluating Resize at the failing input. On the vector holding
the live elements 10 and 20 (size 2, capacity 3), Resize 1 is claimed to
destroy exactly the trailing element at index 1; the code instead calls
DestroyN starting at slot new_size + 1, so afterwards the size is 1 and
the first element is unchanged, but the element at index 1 is still a
live object holding 20 instead of having been destroyed. -/
theorem resize_shrink_off_by_one :
    (Vector.Resize cexBuggy 1).size = 1
    ∧ (Vector.Resize cexBuggy 1).readAt 0 = some 10
    ∧ (Vector.Resize cexBuggy 1).readAt 1 = some 20 := by decide

/-- C2 counterexample: move-constructing from a RawMemory of capacity 3
leaves the moved-from object with a null buffer but capacity 3, not the
claimed zero capacity. -/
theorem moved_from_rawmemory_keeps_capacity :
    (RawMemory.MoveCtor (RawMemory.ofCapacity Nat 3)).2.buffer = none
    ∧ (RawMemory.MoveCtor (RawMemory.ofCapacity Nat 3)).2.capacity = 3
    ∧ ¬ (RawMemory.MoveCtor (RawMemory.ofCapacity Nat 3)).2.capacity = 0 := by decide

/-- C2 amended: after a move-transfer the destination holds exactly the
prior source state. The moved-from RawMemory has a null buffer but
retains its previous capacity value. After Vector move-construction the
source has a null buffer, so it no longer owns any storage, but its size
and capacity fields retain their previous values. Vector move-assignment
swaps the raw buffers, so the source receives the former buffer of the
destination, and copies the size value into the destination while the
source size field keeps its old value. -/
theorem move_transfer_behavior (r : RawMemory T) (v w : Vector T) :
    (RawMemory.MoveCtor r).1 = r
    ∧ (RawMemory.MoveCtor r).2.buffer = none
    ∧ (RawMemory.MoveCtor r).2.capacity = r.capacity
    ∧ (Vector.MoveCtor v).1 = v
    ∧ (Vector.MoveCtor v).2.data.buffer = none
    ∧ (Vector.MoveCtor v).2.size = v.size
    ∧ (Vector.MoveCtor v).2.Capacity = v.Capacity
    ∧ (Vector.MoveAssign w v).1 = ⟨v.data, v.size⟩
    ∧ (Vector.MoveAssign w v).2 = ⟨w.data, v.size⟩ :=
  ⟨rfl, rfl, rfl, rfl, rfl, rfl, rfl, rfl, rfl⟩

/-- C4: the container invariant evaluated at the failing input. The
input satisfies the invariant, but after Resize 1 the slot at index 1,
which lies in the spare range between size and capacity, still holds a
live object, because the shrink branch of Resize destroys starting one
slot too far to the right. -/
theorem resize_breaks_invariant :
    cexBuggy.Inv ∧ ¬ (Vector.Resize cexBuggy 1).Inv := by
  constructor
  · unfold Vector.Inv Vector.WF
    decide
  · unfold Vector.Inv Vector.WF
    decide

/-- C7: Reserve with a request not exceeding the current capacity
returns the vector unchanged: the state, hence capacity, size and every
element value, is identical, and no element was relocated or
destroyed. -/
theorem reserve_noop (v : Vector T) (n : Nat) (h : n ≤ v.Capacity) :
    v.Reserve n = v := by
  unfold Vector.Reserve
  rw [if_pos h]

/-- Witness for reserve_noop at a concrete input. -/
theorem reserve_noop_witness :
    4 ≤ cexMid.Capacity ∧ Vector.Reserve cexMid 4 = cexMid :=
  ⟨by decide, reserve_noop cexMid 4 (by decide)⟩

/-- C9: copy assignment of a structurally well-formed vector to itself
is the identity even through the body of the assignment operator: the
size fits the capacity, so the non-reallocating branch runs, and the
element loop rewrites every live slot with its own value. The source
additionally guards self-assignment with an address check, which skips
the body entirely. -/
theorem self_assign_noop (a : Vector T) (h : a.WF) : a.copyAssign a = a := by
  obtain ⟨h1, h2⟩ := h
  obtain ⟨⟨buf, cap⟩, sz⟩ := a
  unfold Vector.copyAssign
  rw [if_neg (by simp only [Vector.Capacity] at h1 ⊢; omega), if_neg (by omega)]
  cases buf with
  | none => rfl
  | some l =>
    simp only [Vector.slots, Vector.Capacity, Option.getD] at h1 h2 ⊢
    simp only [Option.map_some']
    rw [if_neg (by omega), copyN_self l 0 sz (by omega)]

/-- Witness for self_assign_noop at a concrete input. -/
theorem self_assign_noop_witness :
    cexMid.WF ∧ Vector.copyAssign cexMid cexMid = cexMid :=
  ⟨by unfold Vector.WF; decide,
   self_assign_noop cexMid (by unfold Vector.WF; decide)⟩

theorem relocCopyE_error (f : T → Option T) (v : Vector T) (nb : List (Option T))
    (i n : Nat) (hk : ∃ k, k < n ∧ (v.slots.getD (i + k) none).bind f = none) :
    relocCopyE f v nb i n = .error v := by
  induction n generalizing nb i with
  | zero =>
    obtain ⟨k, hk1, _⟩ := hk
    omega
  | succ n ih =>
    cases hfi : (v.slots.getD i none).bind f with
    | none =>
      simp only [relocCopyE]
      rw [hfi]
    | some x =>
      obtain ⟨k, hk1, hk2⟩ := hk
      cases k with
      | zero =>
        rw [show i + 0 = i from rfl, hfi] at hk2
        cases hk2
      | succ k =>
        simp only [relocCopyE]
        rw [hfi]
        exact ih _ _ ⟨k, by omega, by rw [show i + 1 + k = i + (k + 1) from by omega]; exact hk2⟩

/-- C3: for an element type relocated by copy (copy constructible, move
constructor may throw), if copying some element fails during a growing
Reserve or during a PushBack at full capacity, the exception propagates
and the state it leaves behind is exactly the original vector: the
originals are destroyed only after every relocated copy has succeeded,
and the partially built new buffer is discarded. The fallible element
copy f returns none where the C++ copy constructor would throw. -/
theorem grow_copy_strong_guarantee (f : T → Option T) (v : Vector T) (n : Nat) (x : T)
    (hk : ∃ k, k < v.size ∧ (v.slots.getD k none).bind f = none) :
    (v.Capacity < n → Vector.ReserveE f v n = .error v)
    ∧ (v.size = v.Capacity → Vector.PushBackE f v x = .error v) := by
  have herr : ∀ nb, relocCopyE f v nb 0 v.size = .error v := fun nb =>
    relocCopyE_error f v nb 0 v.size (by simpa using hk)
  constructor
  · intro hlt
    unfold Vector.ReserveE
    rw [if_neg (by omega)]
    rw [herr]
  · intro hfull
    unfold Vector.PushBackE
    rw [if_pos hfull]
    cases hfx : f x with
    | none => simp [hfx]
    | some xc => simp [hfx, herr]

/-- Witness for grow_copy_strong_guarantee: the copy of the element 20
at index 1 throws, both for Reserve 3 past the capacity 2 and for a
PushBack at full capacity, and the exception state is the untouched
original vector. -/
theorem grow_copy_strong_guarantee_witness :
    Vector.ReserveE cexThrowF cexFullV 3 = .error cexFullV
    ∧ Vector.PushBackE cexThrowF cexFullV 5 = .error cexFullV := by
  have h := grow_copy_strong_guarantee cexThrowF cexFullV 3 5 ⟨1, by decide, by decide⟩
  exact ⟨h.1 (by decide), h.2 (by decide)⟩

theorem pushBack_size (v : Vector T) (x : T) : (v.PushBack x).size = v.size + 1 := by
  unfold Vector.PushBack
  split <;> rfl

theorem pushBack_capacity (v : Vector T) (x : T) :
    (v.PushBack x).Capacity =
      if v.size = v.Capacity then (if v.size = 0 then 1 else 2 * v.size) else v.Capacity := by
  unfold Vector.PushBack
  split <;> rfl

theorem appendAll_aux (xs : List T) (v : Vector T)
    (h1 : v.size ≤ v.Capacity)
    (h2 : v.Capacity = 0 ∨ ∃ k, v.Capacity = 2 ^ k) :
    (xs.foldl Vector.PushBack v).size = v.size + xs.length
    ∧ (xs.foldl Vector.PushBack v).size ≤ (xs.foldl Vector.PushBack v).Capacity
    ∧ ((xs.foldl Vector.PushBack v).Capacity = 0
        ∨ ∃ k, (xs.foldl Vector.PushBack v).Capacity = 2 ^ k) := by
  induction xs generalizing v with
  | nil => exact ⟨rfl, h1, h2⟩
  | cons y ys ih =>
    have hs := pushBack_size v y
    have hc := pushBack_capacity v y
    have hstep1 : (v.PushBack y).size ≤ (v.PushBack y).Capacity := by
      rw [hs, hc]
      split
      · split <;> omega
      · omega
    have hstep2 : (v.PushBack y).Capacity = 0 ∨ ∃ k, (v.PushBack y).Capacity = 2 ^ k := by
      rw [hc]
      split
      · split
        · right
          exact ⟨0, rfl⟩
        · rcases h2 with h2 | ⟨k, hk⟩
          · omega
          · right
            exact ⟨k + 1, by rw [pow_succ]; omega⟩
      · exact h2
    have := ih (v.PushBack y) hstep1 hstep2
    refine ⟨?_, this.2.1, this.2.2⟩
    rw [List.foldl_cons, this.1, hs, List.length_cons]
    omega

/-- C5: when an appending operation finds size equal to capacity, the
capacity of the fresh allocation is max 1 (2 * size), for PushBack,
EmplaceBack, Emplace and Insert alike; consequently a sequence of
appends starting from the default-constructed vector reaches size equal
to the number of appends with a capacity that is 0 or a power of two
from the doubling sequence and never below the size. -/
theorem append_growth (v : Vector T) (x : T) (p : Nat) (xs : List T)
    (hfull : v.size = v.Capacity) :
    (v.PushBack x).Capacity = max 1 (2 * v.size)
    ∧ (v.EmplaceBack x).1.Capacity = max 1 (2 * v.size)
    ∧ (v.Emplace p x).1.Capacity = max 1 (2 * v.size)
    ∧ (v.Insert p x).1.Capacity = max 1 (2 * v.size)
    ∧ (Vector.appendAll xs : Vector T).size = xs.length
    ∧ xs.length ≤ (Vector.appendAll xs : Vector T).Capacity
    ∧ ((Vector.appendAll xs : Vector T).Capacity = 0
        ∨ ∃ k, (Vector.appendAll xs : Vector T).Capacity = 2 ^ k) := by
  have hmax : (if v.size = 0 then 1 else 2 * v.size) = max 1 (2 * v.size) := by
    split <;> omega
  have hpb : (v.PushBack x).Capacity = max 1 (2 * v.size) := by
    rw [pushBack_capacity, if_pos hfull, hmax]
  have heb : (v.EmplaceBack x).1.Capacity = max 1 (2 * v.size) := by
    unfold Vector.EmplaceBack
    rw [if_pos hfull]
    exact hmax
  have hem : (v.Emplace p x).1.Capacity = max 1 (2 * v.size) := by
    unfold Vector.Emplace
    rw [if_pos hfull]
    exact hmax
  have happ := appendAll_aux xs (Vector.emptyVec T) (Nat.le_refl 0) (Or.inl rfl)
  refine ⟨hpb, heb, hem, hem, ?_, ?_, happ.2.2⟩
  · rw [show Vector.appendAll xs = xs.foldl Vector.PushBack (Vector.emptyVec T) from rfl,
      happ.1, show (Vector.emptyVec T).size = 0 from rfl]
    omega
  · rw [show Vector.appendAll xs = xs.foldl Vector.PushBack (Vector.emptyVec T) from rfl]
    have h := happ.2.1
    have h1 := happ.1
    rw [show (Vector.emptyVec T).size = 0 from rfl] at h1
    omega

/-- C10: EmplaceBack returns the index of the newly appended element,
which is the last logical index of the grown vector, and the value found
there is the newly constructed one, on the reallocating path and on the
in-place path alike. -/
theorem emplace_back_returns_last (v : Vector T) (x : T) (hwf : v.WF) :
    (v.EmplaceBack x).2 = (v.EmplaceBack x).1.size - 1
    ∧ (v.EmplaceBack x).1.size = v.size + 1
    ∧ (v.EmplaceBack x).1.readAt (v.EmplaceBack x).2 = some x := by
  obtain ⟨h1, h2⟩ := hwf
  unfold Vector.EmplaceBack
  by_cases hfull : v.size = v.Capacity
  · rw [if_pos hfull]
    refine ⟨rfl, rfl, ?_⟩
    simp only [Vector.readAt, Vector.slots, Option.getD_some]
    rw [copyN_getD, if_neg (by omega)]
    exact getD_set_self _ _ _ _ (by rw [List.length_replicate]; split <;> omega)
  · rw [if_neg hfull]
    refine ⟨rfl, rfl, ?_⟩
    cases hbuf : v.data.buffer with
    | none =>
      exfalso
      simp only [Vector.slots, hbuf, Option.getD_none, List.length_nil] at h2
      omega
    | some l =>
      simp only [Vector.slots, hbuf, Option.getD_some] at h2
      simp only [Vector.readAt, Vector.slots, hbuf, Option.map_some', Option.getD_some]
      exact getD_set_self l v.size (some x) none (by omega)

/-- Witness for emplace_back_returns_last at a full one-element
vector. -/
theorem emplace_back_returns_last_witness :
    cexOne.WF
    ∧ ((Vector.EmplaceBack cexOne 5).2 = (Vector.EmplaceBack cexOne 5).1.size - 1
      ∧ (Vector.EmplaceBack cexOne 5).1.size = cexOne.size + 1
      ∧ (Vector.EmplaceBack cexOne 5).1.readAt (Vector.EmplaceBack cexOne 5).2 = some 5) :=
  ⟨by unfold Vector.WF; decide,
   emplace_back_returns_last cexOne 5 (by unfold Vector.WF; decide)⟩

theorem copyAssignE_error_size (f : T → Option T) (a b w : Vector T)
    (hle : b.size ≤ a.Capacity) (hw : Vector.copyAssignE f a b = .error w) :
    w.size = a.size := by
  unfold Vector.copyAssignE at hw
  rw [if_neg (by omega)] at hw
  split at hw
  · split at hw
    · injection hw with h
      rw [← h]
    · exact Except.noConfusion hw
  · split at hw
    · injection hw with h
      rw [← h]
    · split at hw
      · split at hw
        · injection hw with h
          rw [← h]
        · exact Except.noConfusion hw
      · exact Except.noConfusion hw

/-- C6: copy assignment whose source fits the current capacity does not
reallocate: the capacity is unchanged, the size becomes the source size,
the live prefix carries the source values, every slot from the new size
up to the capacity holds no live object, and with fallible element
operations any thrown exception leaves the size field at its old value,
since size is written only after all element operations succeed. The
model functions describe assignment between distinct objects; the source
additionally short-circuits self-assignment with an address check. -/
theorem copy_assign_fits (f : T → Option T) (a b : Vector T)
    (ha : a.Inv) (hle : b.size ≤ a.Capacity) :
    (a.copyAssign b).Capacity = a.Capacity
    ∧ (a.copyAssign b).size = b.size
    ∧ (∀ i, i < b.size → (a.copyAssign b).readAt i = b.readAt i)
    ∧ (∀ i, b.size ≤ i → i < a.Capacity → (a.copyAssign b).readAt i = none)
    ∧ (∀ w, Vector.copyAssignE f a b = .error w → w.size = a.size) := by
  obtain ⟨⟨h1, h2⟩, hlive, hdead⟩ := ha
  refine ⟨?_, ?_, ?_, ?_, fun w hw => copyAssignE_error_size f a b w hle hw⟩
  · unfold Vector.copyAssign
    rw [if_neg (by omega)]
    by_cases hbs : b.size < a.size
    · rw [if_pos hbs]
      rfl
    · rw [if_neg hbs]
      rfl
  · unfold Vector.copyAssign
    rw [if_neg (by omega)]
    by_cases hbs : b.size < a.size
    · rw [if_pos hbs]
    · rw [if_neg hbs]
  · intro i hi
    unfold Vector.copyAssign
    rw [if_neg (by omega)]
    cases hbuf : a.data.buffer with
    | none =>
      exfalso
      simp only [Vector.slots, hbuf, Option.getD_none, List.length_nil] at h2
      omega
    | some l =>
      have hlen : l.length = a.Capacity := by
        simpa [Vector.slots, hbuf] using h2
      by_cases hbs : b.size < a.size
      · rw [if_pos hbs]
        simp only [Vector.readAt, Vector.slots, hbuf, Option.map_some', Option.getD_some]
        rw [destroyN_getD, if_neg (by omega), copyN_getD,
          if_pos ⟨by omega, by omega, by omega⟩, show 0 + (i - 0) = i from by omega]
      · rw [if_neg hbs]
        simp only [Vector.readAt, Vector.slots, hbuf, Option.map_some', Option.getD_some]
        by_cases hlt : a.size < b.size
        · rw [if_pos hlt, copyN_getD, copyN_length]
          by_cases hai : a.size ≤ i
          · rw [if_pos ⟨hai, by omega, by omega⟩, show a.size + (i - a.size) = i from by omega]
          · rw [if_neg (by omega), copyN_getD,
              if_pos ⟨by omega, by omega, by omega⟩, show 0 + (i - 0) = i from by omega]
        · rw [if_neg hlt, copyN_getD,
            if_pos ⟨by omega, by omega, by omega⟩, show 0 + (i - 0) = i from by omega]
  · intro i hbi hic
    unfold Vector.copyAssign
    rw [if_neg (by omega)]
    cases hbuf : a.data.buffer with
    | none =>
      exfalso
      simp only [Vector.slots, hbuf, Option.getD_none, List.length_nil] at h2
      omega
    | some l =>
      have hlen : l.length = a.Capacity := by
        simpa [Vector.slots, hbuf] using h2
      have hdead2 : ∀ j, j < a.Capacity → a.size ≤ j → l.getD j none = none := by
        intro j hj1 hj2
        have hd := hdead j hj1 hj2
        simpa [Vector.slots, hbuf] using hd
      by_cases hbs : b.size < a.size
      · rw [if_pos hbs]
        simp only [Vector.readAt, Vector.slots, hbuf, Option.map_some', Option.getD_some]
        rw [destroyN_getD]
        by_cases his : i < a.size
        · rw [if_pos ⟨hbi, by omega⟩]
        · rw [if_neg (by omega), copyN_getD, if_neg (by omega)]
          exact hdead2 i hic (by omega)
      · rw [if_neg hbs]
        simp only [Vector.readAt, Vector.slots, hbuf, Option.map_some', Option.getD_some]
        by_cases hlt : a.size < b.size
        · rw [if_pos hlt, copyN_getD, copyN_length, if_neg (by omega), copyN_getD,
            if_neg (by omega)]
          exact hdead2 i hic (by omega)
        · rw [if_neg hlt, copyN_getD, if_neg (by omega)]
          exact hdead2 i hic (by omega)

theorem emplace_getD (v : Vector T) (p : Nat) (x : T) (hwf : v.WF) (hp : p ≤ v.size) :
    (v.Emplace p x).1.size = v.size + 1
    ∧ (∀ j, j < p → (v.Emplace p x).1.readAt j = v.readAt j)
    ∧ (v.Emplace p x).1.readAt p = some x
    ∧ (∀ j, p < j → j ≤ v.size → (v.Emplace p x).1.readAt j = v.readAt (j - 1)) := by
  obtain ⟨h1, h2⟩ := hwf
  unfold Vector.Emplace
  by_cases hfull : v.size = v.Capacity
  · rw [if_pos hfull]
    refine ⟨rfl, ?_, ?_, ?_⟩
    · intro j hj
      simp only [Vector.readAt, Vector.slots, Option.getD_some]
      rw [copyN_getD, if_neg (by omega), copyN_getD,
        if_pos ⟨by omega, by omega, by
          rw [List.length_set, List.length_replicate]; split <;> omega⟩,
        show 0 + (j - 0) = j from by omega]
    · simp only [Vector.readAt, Vector.slots, Option.getD_some]
      rw [copyN_getD, if_neg (by omega), copyN_getD, if_neg (by omega)]
      exact getD_set_self _ _ _ _ (by rw [List.length_replicate]; split <;> omega)
    · intro j hjp hjs
      simp only [Vector.readAt, Vector.slots, Option.getD_some]
      rw [copyN_getD,
        if_pos ⟨by omega, by omega, by
          rw [copyN_length, List.length_set, List.length_replicate]; split <;> omega⟩,
        show p + (j - (p + 1)) = j - 1 from by omega]
  · rw [if_neg hfull]
    have hslt : v.size < v.Capacity := by omega
    cases hbuf : v.data.buffer with
    | none =>
      exfalso
      simp only [Vector.slots, hbuf, Option.getD_none, List.length_nil] at h2
      omega
    | some l =>
      have hlen : l.length = v.Capacity := by
        simpa [Vector.slots, hbuf] using h2
      by_cases hpv : p = v.size
      · rw [if_pos hpv]
        refine ⟨rfl, ?_, ?_, ?_⟩
        · intro j hj
          simp only [Vector.readAt, Vector.slots, hbuf, Option.map_some', Option.getD_some]
          exact getD_set_ne l v.size j (some x) none (by omega)
        · simp only [Vector.readAt, Vector.slots, hbuf, Option.map_some', Option.getD_some]
          subst hpv
          exact getD_set_self l v.size (some x) none (by omega)
        · intro j hjp hjs
          exfalso
          omega
      · rw [if_neg hpv]
        have hps : p < v.size := by omega
        refine ⟨rfl, ?_, ?_, ?_⟩
        · intro j hj
          simp only [Vector.readAt, Vector.slots, hbuf, Option.map_some', Option.getD_some]
          rw [getD_set_ne _ p j (some x) none (by omega),
            moveBackward1_getD _ (v.size - 1) (v.size - 1 - p) j (by omega)
              (by rw [List.length_set]; omega),
            if_neg (by omega), getD_set_ne l v.size j _ none (by omega)]
        · simp only [Vector.readAt, Vector.slots, hbuf, Option.map_some', Option.getD_some]
          exact getD_set_self _ p (some x) none
            (by rw [moveBackward1_length, List.length_set]; omega)
        · intro j hjp hjs
          simp only [Vector.readAt, Vector.slots, hbuf, Option.map_some', Option.getD_some]
          rw [getD_set_ne _ p j (some x) none (by omega),
            moveBackward1_getD _ (v.size - 1) (v.size - 1 - p) j (by omega)
              (by rw [List.length_set]; omega)]
          by_cases hj1 : j ≤ v.size - 1
          · rw [if_pos ⟨by omega, hj1⟩, getD_set_ne l v.size (j - 1) _ none (by omega)]
          · have hj2 : j = v.size := by omega
            subst hj2
            rw [if_neg (by omega), getD_set_self l v.size _ none (by omega)]

theorem erase_getD (v : Vector T) (p : Nat) :
    (v.Erase p).1.size = v.size - 1
    ∧ (∀ j, j < p → (v.Erase p).1.readAt j = v.readAt j)
    ∧ (∀ j, p ≤ j → j + 1 < v.size → (v.Erase p).1.readAt j = v.readAt (j + 1)) := by
  unfold Vector.Erase
  refine ⟨rfl, ?_, ?_⟩
  · intro j hj
    cases hbuf : v.data.buffer with
    | none => simp [Vector.readAt, Vector.slots, hbuf]
    | some l =>
      simp only [Vector.readAt, Vector.slots, hbuf, Option.map_some', Option.getD_some]
      rw [moveForward1_getD, if_neg (by omega), getD_set_ne l p j none none (by omega)]
  · intro j hj1 hj2
    cases hbuf : v.data.buffer with
    | none => simp [Vector.readAt, Vector.slots, hbuf]
    | some l =>
      simp only [Vector.readAt, Vector.slots, hbuf, Option.map_some', Option.getD_some]
      rw [moveForward1_getD, if_pos ⟨hj1, by omega⟩,
        getD_set_ne l p (j + 1) none none (by omega)]

/-- C8: inserting a value at a valid position p, by Insert or by Emplace,
and then erasing at position p restores the original size and the
original logical element sequence. -/
theorem insert_erase_roundtrip (v : Vector T) (p : Nat) (x : T)
    (hwf : v.WF) (hp : p ≤ v.size) :
    ((v.Insert p x).1.Erase p).1.size = v.size
    ∧ ((v.Insert p x).1.Erase p).1.elemsL = v.elemsL
    ∧ ((v.Emplace p x).1.Erase p).1.size = v.size
    ∧ ((v.Emplace p x).1.Erase p).1.elemsL = v.elemsL := by
  have hins : v.Insert p x = v.Emplace p x := rfl
  obtain ⟨hs, hlt, hat, hgt⟩ := emplace_getD v p x hwf hp
  obtain ⟨es, elt, egt⟩ := erase_getD (v.Emplace p x).1 p
  have hsz : ((v.Emplace p x).1.Erase p).1.size = v.size := by
    rw [es, hs]
    omega
  have hpt : ∀ i, i < v.size →
      ((v.Emplace p x).1.Erase p).1.readAt i = v.readAt i := by
    intro i hi
    by_cases hip : i < p
    · rw [elt i hip, hlt i hip]
    · rw [egt i (by omega) (by rw [hs]; omega), hgt (i + 1) (by omega) (by omega),
        Nat.add_sub_cancel]
  have helems : ((v.Emplace p x).1.Erase p).1.elemsL = v.elemsL := by
    unfold Vector.elemsL
    rw [hsz]
    apply List.map_congr_left
    intro i hi
    exact hpt i (List.mem_range.mp hi)
  exact ⟨by rw [hins]; exact hsz, by rw [hins]; exact helems, hsz, helems⟩

/-- Witness for insert_erase_roundtrip: insert 9 at position 1 of the
three-element vector and erase it again. -/
theorem insert_erase_roundtrip_witness :
    cexMid.WF
    ∧ (((Vector.Insert cexMid 1 9).1.Erase 1).1.size = cexMid.size
      ∧ ((Vector.Insert cexMid 1 9).1.Erase 1).1.elemsL = cexMid.elemsL
      ∧ ((Vector.Emplace cexMid 1 9).1.Erase 1).1.size = cexMid.size
      ∧ ((Vector.Emplace cexMid 1 9).1.Erase 1).1.elemsL = cexMid.elemsL) :=
  ⟨by unfold Vector.WF; decide,
   insert_erase_roundtrip cexMid 1 9 (by unfold Vector.WF; decide) (by decide)⟩

/-- Witness for copy_assign_fits: the spec scenario of assigning a
three-element vector into a seven-element vector of capacity ten. -/
theorem copy_assign_fits_witness :
    (Vector.copyAssign cexA cexB).Capacity = cexA.Capacity
    ∧ (Vector.copyAssign cexA cexB).size = cexB.size
    ∧ (∀ i, i < cexB.size → (Vector.copyAssign cexA cexB).readAt i = cexB.readAt i)
    ∧ (∀ i, cexB.size ≤ i → i < cexA.Capacity →
        (Vector.copyAssign cexA cexB).readAt i = none)
    ∧ (∀ w, Vector.copyAssignE cexThrowF cexA cexB = .error w → w.size = cexA.size) :=
  copy_assign_fits cexThrowF cexA cexB (by unfold Vector.Inv Vector.WF; decide) (by decide)

/-- Witness for append_growth at a full one-element vector and the
append sequence of length three. -/
theorem append_growth_witness :
    cexOne.size = cexOne.Capacity
    ∧ ((Vector.PushBack cexOne 3).Capacity = max 1 (2 * cexOne.size)
      ∧ (Vector.EmplaceBack cexOne 3).1.Capacity = max 1 (2 * cexOne.size)
      ∧ (Vector.Emplace cexOne 0 3).1.Capacity = max 1 (2 * cexOne.size)
      ∧ (Vector.Insert cexOne 0 3).1.Capacity = max 1 (2 * cexOne.size)
      ∧ (Vector.appendAll [1, 2, 3] : Vector Nat).size = [1, 2, 3].length
      ∧ [1, 2, 3].length ≤ (Vector.appendAll [1, 2, 3] : Vector Nat).Capacity
      ∧ ((Vector.appendAll [1, 2, 3] : Vector Nat).Capacity = 0
          ∨ ∃ k, (Vector.appendAll [1, 2, 3] : Vector Nat).Capacity = 2 ^ k)) :=
  ⟨rfl, append_growth cexOne 3 0 [1, 2, 3] rfl⟩

end AV
